import Mathlib

/-!
Shallow embedding of `src/fpp_sle/fpp/get_arrival_times.py`.

Real-valued numpy arrays are modelled as `List ℝ`.  The numpy global random
generator is modelled by two streams: `U : ℕ → ℝ` supplies the values produced
by `np.random.uniform`, and `C : ℕ → ℕ` supplies the indices picked by
`np.random.choice` (taken modulo the pool length).  The position reached in
each stream stands for the generator state.  The unbounded `while` loop is
modelled with explicit fuel: `none` means the loop has not exited within
`fuel` rounds, so `∀ fuel, … = none` states non-termination.
-/

namespace FppSle

/-- Values a Python caller can pass through `check_types`: a numpy array of
reals, a callable rate, an int, a bool, or a float. -/
inductive PyVal where
  | arr (xs : List ℝ)
  | func (f : List ℝ → List ℝ)
  | int (n : ℤ)
  | bool (b : Bool)
  | float (x : ℝ)

/-- Exceptions raised by the embedded code. -/
inductive PyError where
  | typeError
  | valueError
  | notImplementedError
  | indexError
  deriving DecidableEq

/-- Result of `isinstance(x, np.ndarray)`. -/
def PyVal.isArr : PyVal → Bool
  | .arr _ => true
  | _ => false

/-- Result of `callable(x)`. -/
def PyVal.isCallable : PyVal → Bool
  | .func _ => true
  | _ => false

/-- Whether the value is a Python int. -/
def PyVal.isInt : PyVal → Bool
  | .int _ => true
  | _ => false

/-- The test `any(args[0] < 0)` from `check_types`: true when the value is an
array holding a negative entry (the source only evaluates it on arrays). -/
noncomputable def PyVal.hasNeg : PyVal → Bool
  | .arr xs => xs.any fun x => decide (x < 0)
  | _ => false

/-- The validation performed by the `check_types` decorator before the wrapped
function runs (source lines 39-47).  `some e` means the wrapper raises `e`;
`none` means every check passed and the wrapped function is called.  `args`
are the positional arguments; accessing a missing positional argument raises
`IndexError`, as in Python. -/
noncomputable def check_types : List PyVal → Option PyError
  | [] => some .indexError
  | a0 :: rest =>
    if ¬ (a0.isArr || a0.isCallable) then some .typeError
    else if a0.isArr && a0.hasNeg then some .valueError
    else
      match rest with
      | [] => some .indexError
      | a1 :: rest2 =>
        if ¬ a1.isArr then some .typeError
        else
          match rest2 with
          | [] => some .indexError
          | a2 :: _ => if ¬ a2.isInt then some .typeError else none

/-- The `rate` argument after type checking: a precomputed array or a
callable.  Keyword arguments of a callable rate are considered already
bound. -/
inductive RateSpec where
  | arr (xs : List ℝ)
  | fn (f : List ℝ → List ℝ)

/-- Row `i` of `x.reshape((rows, cols))`, i.e. `x[i*cols : (i+1)*cols]`. -/
def reshape (l : List ℝ) (rows cols : ℕ) : List (List ℝ) :=
  (List.range rows).map fun i => (l.drop (i * cols)).take cols

/-- Rate alignment for the array path with `same_shape=False` (source lines
209-212): `new_length = len(rate) // len(times)`, truncate the rate to the
nearest multiple, reshape to `(len(times), new_length)` and sum each row. -/
noncomputable def alignRate (rate : List ℝ) (n : ℕ) : List ℝ :=
  let new_length := rate.length / n
  let nearest_multiple := n * new_length
  (reshape (rate.take nearest_multiple) n new_length).map List.sum

/-- The step `delta = times[1] - times[0]` (source line 216).  The source
raises `IndexError` on a time axis with fewer than two samples; that case is
never reached by the claims and is given the junk value `0`. -/
noncomputable def delta : List ℝ → ℝ
  | t0 :: t1 :: _ => t1 - t0
  | _ => 0

/-- The per-step average rate of one loop round (source lines 217-220): an
array rate is used as-is (`rate[:]`), a callable is sampled at `times` and
`times + delta` and the two samples are averaged elementwise. -/
noncomputable def avgRate (rate : RateSpec) (times : List ℝ) (d : ℝ) : List ℝ :=
  match rate with
  | .arr xs => xs
  | .fn f => List.zipWith (fun a b => (a + b) / 2) (f times) (f (times.map (· + d)))

/-- The acceptance probabilities `1 - np.exp(-avg_rate * delta)` (source line
221). -/
noncomputable def avgProb (rate : RateSpec) (times : List ℝ) (d : ℝ) : List ℝ :=
  (avgRate rate times d).map fun r => 1 - Real.exp (-r * d)

/-- The values of `np.random.uniform(size=n)` drawn at stream position
`pos`. -/
def draws (U : ℕ → ℝ) (pos n : ℕ) : List ℝ :=
  (List.range n).map fun i => U (pos + i)

/-- The boolean-mask selection `times[rand_throws < avg_prob]` (source line
223): keep `times[i]` exactly when `u[i] < probs[i]`.  In the source all
three arrays have equal length. -/
noncomputable def acceptedTimes (times probs u : List ℝ) : List ℝ :=
  ((times.zip probs).zip u).filterMap fun x => if x.2 < x.1.2 then some x.1.1 else none

/-- The candidate-accumulation `while` loop (source lines 215-223), with
explicit fuel.  `arrival_times` is the accumulated pool and `pos` the uniform
stream position; `none` means the loop has not exited within `fuel`
rounds. -/
noncomputable def accumulate (rate : RateSpec) (times : List ℝ) (total_pulses : ℕ)
    (U : ℕ → ℝ) : ℕ → List ℝ → ℕ → Option (List ℝ × ℕ)
  | 0, arrival_times, pos =>
    if arrival_times.length < total_pulses then none else some (arrival_times, pos)
  | fuel + 1, arrival_times, pos =>
    if arrival_times.length < total_pulses then
      accumulate rate times total_pulses U fuel
        (arrival_times ++
          acceptedTimes times (avgProb rate times (delta times)) (draws U pos times.length))
        (pos + times.length)
    else some (arrival_times, pos)

/-- The downsampling `np.random.choice(pool, size=k)` (source line 224): `k`
draws with replacement, the `i`-th governed by the choice stream value
`C i`. -/
noncomputable def choice (pool : List ℝ) (k : ℕ) (C : ℕ → ℕ) : List ℝ :=
  (List.range k).map fun i => pool.getD (C i % pool.length) 0

/-- The rate value after the alignment branch (source lines 204-212): an
array rate is block-aggregated unless `same_shape` holds, a callable is left
untouched. -/
noncomputable def alignedRate (rate : RateSpec) (times : List ℝ)
    (same_shape : Bool) : RateSpec :=
  match rate with
  | RateSpec.arr xs =>
      RateSpec.arr (if same_shape then xs else alignRate xs times.length)
  | RateSpec.fn f => RateSpec.fn f

/-- The body of `from_inhomogeneous_poisson_process` (source lines 204-226)
on typed arguments.  Returns the sorted arrival times together with the
number of uniform draws consumed, or `none` when the loop does not exit
within `fuel` rounds. -/
noncomputable def from_inhomogeneous_poisson_process (rate : RateSpec)
    (times : List ℝ) (total_pulses : ℕ) (same_shape : Bool)
    (U : ℕ → ℝ) (C : ℕ → ℕ) (fuel : ℕ) : Option (List ℝ × ℕ) :=
  match accumulate (alignedRate rate times same_shape) times total_pulses U fuel [] 0 with
  | none => none
  | some (arrival_times, pos) =>
    some ((choice arrival_times total_pulses C).insertionSort (· ≤ ·), pos)

/-- The state of the shared numpy random generator: positions reached in the
uniform and choice streams. -/
structure RandState where
  uPos : ℕ
  cPos : ℕ
  deriving DecidableEq

/-- The decorated entry point `from_inhomogeneous_poisson_process` as called
from Python: `check_types` validation first, then the body.  The outer
`Option` is loop termination; a raised exception is `Except.error` and leaves
the generator state `s` untouched. -/
noncomputable def from_inhomogeneous_poisson_process_checked (args : List PyVal)
    (same_shape : Bool) (U : ℕ → ℝ) (C : ℕ → ℕ) (fuel : ℕ) (s : RandState) :
    Option (Except PyError (List ℝ) × RandState) :=
  match check_types args with
  | some e => some (.error e, s)
  | none =>
    match args with
    | PyVal.arr xs :: PyVal.arr times :: PyVal.int n :: _ =>
      (from_inhomogeneous_poisson_process (RateSpec.arr xs) times n.toNat same_shape
          (fun k => U (s.uPos + k)) (fun k => C (s.cPos + k)) fuel).map
        fun r => (.ok r.1, ⟨s.uPos + r.2, s.cPos + n.toNat⟩)
    | PyVal.func f :: PyVal.arr times :: PyVal.int n :: _ =>
      (from_inhomogeneous_poisson_process (RateSpec.fn f) times n.toNat same_shape
          (fun k => U (s.uPos + k)) (fun k => C (s.cPos + k)) fuel).map
        fun r => (.ok r.1, ⟨s.uPos + r.2, s.cPos + n.toNat⟩)
    | _ => none

/-- The decorated `from_cox_process` (source lines 154-158): the
`check_types` validation runs first; when it passes, the body raises
`NotImplementedError` unconditionally.  The call always raises, so the result
is the exception raised. -/
noncomputable def from_cox_process (args : List PyVal) : PyError :=
  match check_types args with
  | some e => e
  | none => .notImplementedError

theorem alignRate_length (rate : List ℝ) (n : ℕ) : (alignRate rate n).length = n := by
  simp [alignRate, reshape]

theorem alignRate_getD (rate : List ℝ) (n i : ℕ) (hi : i < n) :
    (alignRate rate n).getD i 0 =
      (((rate.take (n * (rate.length / n))).drop (i * (rate.length / n))).take
        (rate.length / n)).sum := by
  have hlen : i < (alignRate rate n).length := by rw [alignRate_length]; exact hi
  rw [List.getD_eq_getElem _ _ hlen]
  simp [alignRate, reshape]

theorem alignRate_replicate_ones :
    alignRate (List.replicate 20 (1 : ℝ)) 10 = List.replicate 10 (2 : ℝ) := by
  rw [List.eq_replicate_iff]
  refine ⟨by simp [alignRate, reshape], ?_⟩
  intro b hb
  simp only [alignRate, reshape, List.length_replicate, List.map_map, List.mem_map,
    List.mem_range, Function.comp] at hb
  obtain ⟨i, hi, hb⟩ := hb
  rw [← hb]
  norm_num [List.sum_replicate]
  omega

/-- C2: with an array rate and `same_shape=False`, the rate is aligned by
taking `block_size = ⌊len(rate)/len(times)⌋`, truncating the rate to
`len(times) * block_size` entries, splitting it into `len(times)` contiguous
blocks of `block_size` elements and summing each block; in particular twenty
ones against a ten-sample time axis collapse to ten blocks each of sum 2. -/
theorem C2_rate_alignment (rate : List ℝ) (n : ℕ) :
    (alignRate rate n).length = n ∧
    (∀ i, i < n →
      (alignRate rate n).getD i 0 =
        (((rate.take (n * (rate.length / n))).drop (i * (rate.length / n))).take
          (rate.length / n)).sum) ∧
    (∀ xs ts, alignedRate (RateSpec.arr xs) ts false =
      RateSpec.arr (alignRate xs ts.length)) ∧
    alignRate (List.replicate 20 (1 : ℝ)) 10 = List.replicate 10 (2 : ℝ) :=
  ⟨alignRate_length rate n, fun i hi => alignRate_getD rate n i hi,
    fun xs ts => by simp [alignedRate], alignRate_replicate_ones⟩

theorem C2_rate_alignment_witness :
    (alignRate (List.replicate 20 (1 : ℝ)) 10).getD 3 0 =
      ((((List.replicate 20 (1 : ℝ)).take (10 * (20 / 10))).drop (3 * (20 / 10))).take
        (20 / 10)).sum :=
  by simpa using (C2_rate_alignment (List.replicate 20 (1 : ℝ)) 10).2.1 3 (by norm_num)

/-- C3: every round of the accumulation loop uses acceptance probabilities
`1 - exp(-avg_rate * delta)` with `delta = times[1] - times[0]`; the average
rate is the (aligned) rate array itself, value for value, on the array path,
and the elementwise mean of `rate(times)` and `rate(times + delta)` on the
callable path. -/
theorem C3_thinning_formula (rate : RateSpec) (times : List ℝ) (d : ℝ) :
    (∀ i, i < (avgRate rate times d).length →
        (avgProb rate times d).getD i 0 =
          1 - Real.exp (-((avgRate rate times d).getD i 0) * d)) ∧
    (∀ xs, avgRate (RateSpec.arr xs) times d = xs) ∧
    (∀ f i, i < (f times).length → i < (f (times.map (· + d))).length →
        (avgRate (RateSpec.fn f) times d).getD i 0 =
          ((f times).getD i 0 + (f (times.map (· + d))).getD i 0) / 2) ∧
    (∀ t0 t1 rest, delta (t0 :: t1 :: rest) = t1 - t0) ∧
    (∀ tp U fuel acc pos, acc.length < tp →
        accumulate rate times tp U (fuel + 1) acc pos =
          accumulate rate times tp U fuel
            (acc ++ acceptedTimes times (avgProb rate times (delta times))
              (draws U pos times.length))
            (pos + times.length)) := by
  refine ⟨?_, fun xs => rfl, ?_, fun t0 t1 rest => rfl, ?_⟩
  · intro i hi
    have h1 : i < (avgProb rate times d).length := by
      simpa [avgProb] using hi
    rw [List.getD_eq_getElem _ _ h1, List.getD_eq_getElem _ _ hi]
    simp [avgProb]
  · intro f i h1 h2
    have hz : i < (avgRate (RateSpec.fn f) times d).length := by
      simp [avgRate]; omega
    rw [List.getD_eq_getElem _ _ hz, List.getD_eq_getElem _ _ h1,
      List.getD_eq_getElem _ _ h2]
    simp [avgRate]
  · intro tp U fuel acc pos h
    simp [accumulate, h]

theorem C3_thinning_formula_witness :
    (avgProb (RateSpec.arr [(1 : ℝ)]) [0, 1] 1).getD 0 0 =
      1 - Real.exp (-((avgRate (RateSpec.arr [(1 : ℝ)]) [0, 1] 1).getD 0 0) * 1) :=
  (C3_thinning_formula (RateSpec.arr [(1 : ℝ)]) [0, 1] 1).1 0 (by simp [avgRate])

/-- C4: a rate array with a negative entry makes the checked entry point raise
the negative-rate `ValueError` before the body runs: the generator state is
returned exactly as it was supplied, so no randomness is consumed. -/
theorem C4_negative_rate (xs : List ℝ) (rest : List PyVal) (same_shape : Bool)
    (U : ℕ → ℝ) (C : ℕ → ℕ) (fuel : ℕ) (s : RandState)
    (h : ∃ x ∈ xs, x < 0) :
    from_inhomogeneous_poisson_process_checked (PyVal.arr xs :: rest) same_shape
        U C fuel s =
      some (Except.error PyError.valueError, s) := by
  have hneg : (PyVal.arr xs).hasNeg = true := by
    simpa [PyVal.hasNeg, List.any_eq_true] using h
  simp [from_inhomogeneous_poisson_process_checked, check_types, PyVal.isArr,
    PyVal.isCallable, hneg]

theorem C4_negative_rate_witness :
    from_inhomogeneous_poisson_process_checked
        [PyVal.arr [(-1 : ℝ)], PyVal.arr [0, 1], PyVal.int 3] false
        (fun _ => 0) (fun _ => 0) 0 ⟨0, 0⟩ =
      some (Except.error PyError.valueError, ⟨0, 0⟩) :=
  C4_negative_rate [(-1 : ℝ)] [PyVal.arr [0, 1], PyVal.int 3] false
    (fun _ => 0) (fun _ => 0) 0 ⟨0, 0⟩ ⟨-1, by simp, by norm_num⟩

/-- C8 counterexample: calling `from_cox_process` with arguments of exactly
the types its signature declares (`rate` an array, `same_shape` a bool,
`times` an array, `mu` a float) raises `TypeError` from the `check_types`
decorator, not `NotImplementedError`. -/
theorem C8_counterexample :
    from_cox_process
        [PyVal.arr [(1 : ℝ)], PyVal.bool true, PyVal.arr [0, 1], PyVal.float 1] =
      PyError.typeError ∧ PyError.typeError ≠ PyError.notImplementedError := by
  refine ⟨?_, by decide⟩
  have h1 : (PyVal.arr [(1 : ℝ)]).hasNeg = false := by
    simp [PyVal.hasNeg]
  simp [from_cox_process, check_types, PyVal.isArr, PyVal.isCallable, h1]

/-- C8 amended: whenever the decorator's validation passes (rate an array or
callable with no negative entries, second positional argument an array, third
an int), `from_cox_process` raises `NotImplementedError`; with arguments
following its declared signature the decorator raises `TypeError` first. -/
theorem C8_not_implemented (args : List PyVal) (h : check_types args = none) :
    from_cox_process args = PyError.notImplementedError := by
  simp [from_cox_process, h]

theorem C8_not_implemented_witness :
    from_cox_process [PyVal.arr [(1 : ℝ)], PyVal.arr [0, 1], PyVal.int 5] =
      PyError.notImplementedError := by
  refine C8_not_implemented _ ?_
  have h1 : (PyVal.arr [(1 : ℝ)]).hasNeg = false := by
    simp [PyVal.hasNeg]
  simp [check_types, PyVal.isArr, PyVal.isCallable, PyVal.isInt, h1]

/-- C10: `check_types` never inspects the values a callable rate returns, so
every callable passes validation; a negative per-step average rate yields a
negative acceptance probability `1 - exp(-avg*delta) < 0`, and a step whose
probability is negative is never accepted when the uniform draws are
non-negative. -/
theorem C10_callable_unchecked (f : List ℝ → List ℝ) (ts : List ℝ) (n : ℤ)
    (d : ℝ) :
    check_types [PyVal.func f, PyVal.arr ts, PyVal.int n] = none ∧
    (∀ i, i < (avgRate (RateSpec.fn f) ts d).length →
        (avgRate (RateSpec.fn f) ts d).getD i 0 < 0 → 0 < d →
        (avgProb (RateSpec.fn f) ts d).getD i 0 < 0) ∧
    (∀ tms probs us, (∀ p ∈ probs, p < 0) → (∀ x ∈ us, 0 ≤ x) →
        acceptedTimes tms probs us = []) := by
  refine ⟨?_, ?_, ?_⟩
  · simp [check_types, PyVal.isArr, PyVal.isCallable, PyVal.isInt, PyVal.hasNeg]
  · intro i hi hr hd
    have h1 : i < (avgProb (RateSpec.fn f) ts d).length := by
      simpa [avgProb] using hi
    rw [List.getD_eq_getElem _ _ h1]
    rw [List.getD_eq_getElem _ _ hi] at hr
    have hpos : 0 < -(avgRate (RateSpec.fn f) ts d)[i] * d :=
      mul_pos (by linarith) hd
    have := Real.one_lt_exp_iff.mpr hpos
    simp only [avgProb, List.getElem_map]
    linarith
  · intro tms probs us hp hu
    rw [acceptedTimes, List.filterMap_eq_nil_iff]
    rintro ⟨⟨t, p⟩, uv⟩ ha
    obtain ⟨h1, h2⟩ := List.of_mem_zip ha
    obtain ⟨_, h3⟩ := List.of_mem_zip h1
    have : ¬ uv < p := by
      have := hp p h3
      have := hu uv h2
      linarith
    simp [this]

theorem C10_callable_unchecked_witness :
    acceptedTimes [(0 : ℝ)] [(-1 : ℝ)] [(0 : ℝ)] = [] :=
  (C10_callable_unchecked (fun ts => ts.map fun _ => (-1 : ℝ)) [0, 1] 5 1).2.2
    [(0 : ℝ)] [(-1 : ℝ)] [(0 : ℝ)]
    (by intro p hp; simp at hp; simp [hp])
    (by intro x hx; simp at hx; simp [hx])

theorem accumulate_some_length (rate : RateSpec) (times : List ℝ) (tp : ℕ)
    (U : ℕ → ℝ) (fuel : ℕ) :
    ∀ acc pos pool p,
      accumulate rate times tp U fuel acc pos = some (pool, p) →
        tp ≤ pool.length := by
  induction fuel with
  | zero =>
    intro acc pos pool p h
    by_cases hc : acc.length < tp
    · simp [accumulate, hc] at h
    · simp [accumulate, hc] at h
      obtain ⟨rfl, rfl⟩ := h
      omega
  | succ n ih =>
    intro acc pos pool p h
    by_cases hc : acc.length < tp
    · simp only [accumulate, if_pos hc] at h
      exact ih _ _ _ _ h
    · simp [accumulate, hc] at h
      obtain ⟨rfl, rfl⟩ := h
      omega

theorem acceptedTimes_subset (times probs u : List ℝ) :
    ∀ x ∈ acceptedTimes times probs u, x ∈ times := by
  intro x hx
  simp only [acceptedTimes, List.mem_filterMap] at hx
  obtain ⟨⟨⟨t, p⟩, uv⟩, ha, hx⟩ := hx
  by_cases h : uv < p
  · simp only [if_pos h, Option.some_inj] at hx
    rw [← hx]
    exact (List.of_mem_zip (List.of_mem_zip ha).1).1
  · simp [if_neg h] at hx

theorem accumulate_mem (rate : RateSpec) (times : List ℝ) (tp : ℕ)
    (U : ℕ → ℝ) (fuel : ℕ) :
    ∀ acc pos pool p,
      accumulate rate times tp U fuel acc pos = some (pool, p) →
        ∀ x ∈ pool, x ∈ acc ∨ x ∈ times := by
  induction fuel with
  | zero =>
    intro acc pos pool p h
    by_cases hc : acc.length < tp
    · simp [accumulate, hc] at h
    · simp [accumulate, hc] at h
      obtain ⟨h1, _⟩ := h
      rw [← h1]
      exact fun x hx => Or.inl hx
  | succ n ih =>
    intro acc pos pool p h
    by_cases hc : acc.length < tp
    · simp only [accumulate, if_pos hc] at h
      intro x hx
      rcases ih _ _ _ _ h x hx with h1 | h1
      · rcases List.mem_append.mp h1 with h2 | h2
        · exact Or.inl h2
        · exact Or.inr (acceptedTimes_subset _ _ _ x h2)
      · exact Or.inr h1
    · simp [accumulate, hc] at h
      obtain ⟨h1, _⟩ := h
      rw [← h1]
      exact fun x hx => Or.inl hx

theorem choice_length (pool : List ℝ) (k : ℕ) (C : ℕ → ℕ) :
    (choice pool k C).length = k := by
  simp [choice]

theorem choice_mem (pool : List ℝ) (k : ℕ) (C : ℕ → ℕ) (hp : pool ≠ []) :
    ∀ x ∈ choice pool k C, x ∈ pool := by
  intro x hx
  simp only [choice, List.mem_map, List.mem_range] at hx
  obtain ⟨i, _, hx⟩ := hx
  rw [← hx]
  have hlen : 0 < pool.length := List.length_pos.mpr hp
  rw [List.getD_eq_getElem _ _ (Nat.mod_lt _ hlen)]
  exact List.getElem_mem _

/-- C1: whenever `from_inhomogeneous_poisson_process` returns (the loop exits
within the given fuel), the returned sequence has length exactly
`total_pulses`, for every valid input. -/
theorem C1_output_length (rate : RateSpec) (times : List ℝ) (tp : ℕ)
    (same_shape : Bool) (U : ℕ → ℝ) (C : ℕ → ℕ) (fuel : ℕ) (out : List ℝ)
    (pos : ℕ) (_htp : 0 < tp)
    (h : from_inhomogeneous_poisson_process rate times tp same_shape U C fuel =
      some (out, pos)) :
    out.length = tp := by
  rw [from_inhomogeneous_poisson_process] at h
  cases hacc : accumulate (alignedRate rate times same_shape) times tp U fuel [] 0 with
  | none => rw [hacc] at h; exact absurd h (by simp)
  | some r =>
    obtain ⟨pool, p⟩ := r
    rw [hacc] at h
    simp only [Option.some_inj, Prod.mk.injEq] at h
    obtain ⟨h1, _⟩ := h
    rw [← h1, List.length_insertionSort, choice_length]

/-- C6: whenever `from_inhomogeneous_poisson_process` returns, the returned
sequence is sorted ascending: `output[i] <= output[i+1]` for every valid
index `i`. -/
theorem C6_output_sorted (rate : RateSpec) (times : List ℝ) (tp : ℕ)
    (same_shape : Bool) (U : ℕ → ℝ) (C : ℕ → ℕ) (fuel : ℕ) (out : List ℝ)
    (pos : ℕ)
    (h : from_inhomogeneous_poisson_process rate times tp same_shape U C fuel =
      some (out, pos)) :
    ∀ i (hi : i + 1 < out.length),
      out.get ⟨i, Nat.lt_of_succ_lt hi⟩ ≤ out.get ⟨i + 1, hi⟩ := by
  have hs : List.Sorted (· ≤ ·) out := by
    rw [from_inhomogeneous_poisson_process] at h
    cases hacc : accumulate (alignedRate rate times same_shape) times tp U fuel [] 0 with
    | none => rw [hacc] at h; exact absurd h (by simp)
    | some r =>
      obtain ⟨pool, p⟩ := r
      rw [hacc] at h
      simp only [Option.some_inj, Prod.mk.injEq] at h
      obtain ⟨h1, _⟩ := h
      rw [← h1]
      exact List.sorted_insertionSort _ _
  intro i hi
  exact hs.rel_get_of_lt (by simp)

/-- C7: on the array-rate path, every value returned by
`from_inhomogeneous_poisson_process` is an element of the `times` array:
candidates are picked from `times` and the final draw is taken from the
candidate pool. -/
theorem C7_output_mem (xs : List ℝ) (times : List ℝ) (tp : ℕ)
    (same_shape : Bool) (U : ℕ → ℝ) (C : ℕ → ℕ) (fuel : ℕ) (out : List ℝ)
    (pos : ℕ) (htp : 0 < tp)
    (h : from_inhomogeneous_poisson_process (RateSpec.arr xs) times tp same_shape
        U C fuel = some (out, pos)) :
    ∀ x ∈ out, x ∈ times := by
  rw [from_inhomogeneous_poisson_process] at h
  cases hacc : accumulate (alignedRate (RateSpec.arr xs) times same_shape) times
      tp U fuel [] 0 with
  | none => rw [hacc] at h; exact absurd h (by simp)
  | some r =>
    obtain ⟨pool, p⟩ := r
    rw [hacc] at h
    simp only [Option.some_inj, Prod.mk.injEq] at h
    obtain ⟨h1, _⟩ := h
    intro x hx
    rw [← h1, List.mem_insertionSort] at hx
    have hlen : tp ≤ pool.length := accumulate_some_length _ _ _ _ _ _ _ _ _ hacc
    have hpool : pool ≠ [] := by
      intro he
      rw [he] at hlen
      simp at hlen
      omega
    have hx2 : x ∈ pool := choice_mem pool tp C hpool x hx
    rcases accumulate_mem _ _ _ _ _ _ _ _ _ hacc x hx2 with h2 | h2
    · simp at h2
    · exact h2

theorem acceptedTimes_nil_of_nonpos (times probs u : List ℝ)
    (hp : ∀ p ∈ probs, p ≤ 0) (hu : ∀ x ∈ u, 0 ≤ x) :
    acceptedTimes times probs u = [] := by
  rw [acceptedTimes, List.filterMap_eq_nil_iff]
  rintro ⟨⟨t, p⟩, uv⟩ ha
  obtain ⟨h1, h2⟩ := List.of_mem_zip ha
  obtain ⟨_, h3⟩ := List.of_mem_zip h1
  have hlt : ¬ uv < p := by
    have := hp p h3
    have := hu uv h2
    linarith
  simp [hlt]

theorem avgProb_nonpos_of_zero (rate : RateSpec) (times : List ℝ) (d : ℝ)
    (h : ∀ r ∈ avgRate rate times d, r = 0) :
    ∀ p ∈ avgProb rate times d, p ≤ 0 := by
  intro p hp
  simp only [avgProb, List.mem_map] at hp
  obtain ⟨r, hr, hp⟩ := hp
  rw [h r hr] at hp
  simp only [neg_zero, zero_mul, Real.exp_zero, sub_self] at hp
  linarith

theorem alignRate_zero (xs : List ℝ) (n : ℕ) (h : ∀ x ∈ xs, x = 0) :
    ∀ y ∈ alignRate xs n, y = 0 := by
  intro y hy
  simp only [alignRate, reshape, List.map_map, List.mem_map, List.mem_range,
    Function.comp] at hy
  obtain ⟨i, _, hy⟩ := hy
  rw [← hy]
  apply List.sum_eq_zero
  intro x hx
  exact h x (List.mem_of_mem_take (List.mem_of_mem_drop (List.mem_of_mem_take hx)))

theorem avgRate_zero_fn (times : List ℝ) (d : ℝ) :
    ∀ r ∈ avgRate (RateSpec.fn fun ts => ts.map fun _ => (0 : ℝ)) times d,
      r = 0 := by
  intro r hr
  rw [List.mem_iff_getElem] at hr
  obtain ⟨i, hi, hr⟩ := hr
  rw [← hr]
  simp [avgRate]

theorem accumulate_none_of_nonpos (rate : RateSpec) (times : List ℝ) (tp : ℕ)
    (U : ℕ → ℝ) (hU : ∀ k, 0 ≤ U k) (htp : 1 ≤ tp)
    (hp : ∀ p ∈ avgProb rate times (delta times), p ≤ 0) :
    ∀ fuel pos, accumulate rate times tp U fuel [] pos = none := by
  intro fuel
  induction fuel with
  | zero =>
    intro pos
    simp only [accumulate, List.length_nil]
    rw [if_pos (by omega)]
  | succ n ih =>
    intro pos
    have hnil : acceptedTimes times (avgProb rate times (delta times))
        (draws U pos times.length) = [] := by
      apply acceptedTimes_nil_of_nonpos _ _ _ hp
      intro x hx
      simp only [draws, List.mem_map, List.mem_range] at hx
      obtain ⟨i, _, hx⟩ := hx
      rw [← hx]
      exact hU _
    simp only [accumulate, List.length_nil, hnil, List.nil_append]
    rw [if_pos (by omega)]
    exact ih (pos + times.length)

/-- C5: with a uniformly zero rate (an all-zero array, with or without
reshaping, or a callable returning zero everywhere) and `total_pulses >= 1`,
the accumulation loop never adds a candidate, so
`from_inhomogeneous_poisson_process` does not terminate: it fails to exit
within any amount of fuel. -/
theorem C5_zero_rate_nontermination (m tp : ℕ) (times : List ℝ)
    (same_shape : Bool) (U : ℕ → ℝ) (C : ℕ → ℕ)
    (hU : ∀ k, 0 ≤ U k) (htp : 1 ≤ tp) :
    (∀ fuel, from_inhomogeneous_poisson_process
        (RateSpec.arr (List.replicate m 0)) times tp same_shape U C fuel = none) ∧
    (∀ fuel, from_inhomogeneous_poisson_process
        (RateSpec.fn fun ts => ts.map fun _ => (0 : ℝ)) times tp same_shape U C
        fuel = none) := by
  constructor
  · intro fuel
    have hz : ∀ r ∈ avgRate
        (alignedRate (RateSpec.arr (List.replicate m 0)) times same_shape) times
        (delta times), r = 0 := by
      cases same_shape with
      | true =>
        intro r hr
        simp [alignedRate, avgRate] at hr
        exact hr.2
      | false =>
        intro r hr
        simp [alignedRate, avgRate] at hr
        exact alignRate_zero _ _ (fun x hx => List.eq_of_mem_replicate hx) r hr
    simp only [from_inhomogeneous_poisson_process,
      accumulate_none_of_nonpos _ _ _ _ hU htp (avgProb_nonpos_of_zero _ _ _ hz)
        fuel 0]
  · intro fuel
    have hz := avgRate_zero_fn times (delta times)
    simp only [from_inhomogeneous_poisson_process, alignedRate,
      accumulate_none_of_nonpos _ _ _ _ hU htp (avgProb_nonpos_of_zero _ _ _ hz)
        fuel 0]

theorem C5_zero_rate_nontermination_witness :
    from_inhomogeneous_poisson_process (RateSpec.arr (List.replicate 3 0))
      [0, 1] 1 true (fun _ => 0) (fun _ => 0) 5 = none :=
  (C5_zero_rate_nontermination 3 1 [0, 1] true (fun _ => 0) (fun _ => 0)
    (fun _ => le_refl 0) (le_refl 1)).1 5

/-- C9: with an array rate strictly shorter than `times` and
`same_shape=False`, the block size is 0, the aggregated rate is the all-zero
array of length `len(times)`, and the loop never terminates for any
`total_pulses >= 1`; the decorator raises nothing, so the "rate longer than
times" assumption is never checked or rejected. -/
theorem C9_short_rate_nontermination (rate times : List ℝ) (tp : ℕ)
    (U : ℕ → ℝ) (C : ℕ → ℕ)
    (hlen : rate.length < times.length) (hnn : ∀ x ∈ rate, 0 ≤ x)
    (hU : ∀ k, 0 ≤ U k) (htp : 1 ≤ tp) :
    alignRate rate times.length = List.replicate times.length 0 ∧
    (∀ fuel, from_inhomogeneous_poisson_process (RateSpec.arr rate) times tp
        false U C fuel = none) ∧
    check_types [PyVal.arr rate, PyVal.arr times, PyVal.int tp] = none := by
  have halign : alignRate rate times.length = List.replicate times.length 0 := by
    simp [alignRate, reshape, Nat.div_eq_of_lt hlen, List.map_const']
  refine ⟨halign, ?_, ?_⟩
  · intro fuel
    have hz : ∀ r ∈ avgRate (alignedRate (RateSpec.arr rate) times false) times
        (delta times), r = 0 := by
      intro r hr
      simp only [alignedRate, if_false, avgRate, halign] at hr
      exact List.eq_of_mem_replicate hr
    simp only [from_inhomogeneous_poisson_process,
      accumulate_none_of_nonpos _ _ _ _ hU htp (avgProb_nonpos_of_zero _ _ _ hz)
        fuel 0]
  · have hneg : (PyVal.arr rate).hasNeg = false := by
      simp only [PyVal.hasNeg, List.any_eq_false]
      intro x hx
      simp only [decide_eq_true_eq, not_lt]
      exact hnn x hx
    simp [check_types, PyVal.isArr, PyVal.isCallable, PyVal.isInt, hneg]

theorem C9_short_rate_nontermination_witness :
    from_inhomogeneous_poisson_process (RateSpec.arr [(1 : ℝ)]) [0, 1, 2] 1
      false (fun _ => 0) (fun _ => 0) 4 = none :=
  (C9_short_rate_nontermination [(1 : ℝ)] [0, 1, 2] 1 (fun _ => 0) (fun _ => 0)
    (by norm_num) (by intro x hx; simp at hx; simp [hx]) (fun _ => le_refl 0)
    (le_refl 1)).2.1 4

theorem accumulate_succ (rate : RateSpec) (times : List ℝ) (tp : ℕ)
    (U : ℕ → ℝ) (fuel : ℕ) (acc : List ℝ) (pos : ℕ) (h : acc.length < tp) :
    accumulate rate times tp U (fuel + 1) acc pos =
      accumulate rate times tp U fuel
        (acc ++ acceptedTimes times (avgProb rate times (delta times))
          (draws U pos times.length))
        (pos + times.length) := by
  simp [accumulate, h]

theorem accumulate_exit (rate : RateSpec) (times : List ℝ) (tp : ℕ)
    (U : ℕ → ℝ) (fuel : ℕ) (acc : List ℝ) (pos : ℕ) (h : ¬ acc.length < tp) :
    accumulate rate times tp U fuel acc pos = some (acc, pos) := by
  cases fuel <;> simp [accumulate, h]

theorem accepted_example :
    acceptedTimes [(0 : ℝ), 1]
      (avgProb (RateSpec.arr [1, 1]) [(0 : ℝ), 1] (delta [(0 : ℝ), 1]))
      (draws (fun _ => 0) 0 2) = [0, 1] := by
  have hd : delta [(0 : ℝ), 1] = 1 := by norm_num [delta]
  have hp : (0 : ℝ) < 1 - Real.exp (-1) := by
    have h1 : Real.exp (-1 : ℝ) < 1 := Real.exp_lt_one_iff.mpr (by norm_num)
    linarith
  rw [hd]
  norm_num [acceptedTimes, avgProb, avgRate, draws, List.range_succ,
    List.filterMap_cons, hp]

theorem accumulate_example :
    accumulate (RateSpec.arr [1, 1]) [(0 : ℝ), 1] 2 (fun _ => 0) 1 [] 0 =
      some ([0, 1], 2) := by
  rw [accumulate_succ _ _ _ _ _ _ _ (by norm_num)]
  simp only [List.length_cons, List.length_nil, List.nil_append, Nat.zero_add]
  rw [accepted_example]
  exact accumulate_exit _ _ _ _ _ _ _ (by norm_num)

theorem run_example :
    from_inhomogeneous_poisson_process (RateSpec.arr [1, 1]) [(0 : ℝ), 1] 2
      true (fun _ => 0) (fun _ => 0) 1 = some ([0, 0], 2) := by
  have halign : alignedRate (RateSpec.arr [1, 1]) [(0 : ℝ), 1] true =
      RateSpec.arr [1, 1] := by simp [alignedRate]
  simp only [from_inhomogeneous_poisson_process, halign, accumulate_example]
  norm_num [choice, List.range_succ, List.insertionSort, List.orderedInsert]

theorem C1_output_length_witness : ([(0 : ℝ), 0]).length = 2 :=
  C1_output_length (RateSpec.arr [1, 1]) [(0 : ℝ), 1] 2 true (fun _ => 0)
    (fun _ => 0) 1 [0, 0] 2 (by norm_num) run_example

theorem C6_output_sorted_witness :
    ([(0 : ℝ), 0]).get ⟨0, by norm_num⟩ ≤ ([(0 : ℝ), 0]).get ⟨1, by norm_num⟩ :=
  C6_output_sorted (RateSpec.arr [1, 1]) [(0 : ℝ), 1] 2 true (fun _ => 0)
    (fun _ => 0) 1 [0, 0] 2 run_example 0 (by norm_num)

theorem C7_output_mem_witness : (0 : ℝ) ∈ [(0 : ℝ), 1] :=
  C7_output_mem [1, 1] [(0 : ℝ), 1] 2 true (fun _ => 0) (fun _ => 0) 1 [0, 0] 2
    (by norm_num) run_example 0 (by simp)

end FppSle
